import Mathlib

/-!
Verification development for the farfalle crate: a shallow embedding of the
Farfalle deck function (src/farfalle.rs), the Deck-SANE and Deck-SANSE session
AEADs (src/sane.rs, src/sanse.rs) and the wide block cipher (src/wbc.rs),
together with proofs about their round-trip, failure-path and invariant
behaviour.

Bytes are modelled as natural numbers combined with bitwise xor; fixed-size
byte arrays of the Rust code become lists whose length is tracked by
well-formedness predicates.  The abstract `Permutation` instances of the crate
become arbitrary length-preserving functions on lists, collected in a
`FarfalleP` parameter structure.
-/

/-- Pointwise xor of two byte strings (the `xor_in2out` operations of the
crate); the result has the length of the shorter input. -/
def xorBytes (a b : List Nat) : List Nat :=
  List.zipWith (fun x y => x ^^^ y) a b

/-- Ceiling division, as Rust `usize::div_ceil`. -/
def divCeil (a b : Nat) : Nat := (a + b - 1) / b

/-- Rust `usize::next_multiple_of`: least multiple of `b` that is `≥ a`. -/
def nextMultipleOf (a b : Nat) : Nat := divCeil a b * b

/-- Fuel-driven base-2 integer logarithm. -/
def ilog2Aux : Nat → Nat → Nat
  | 0, _ => 0
  | fuel + 1, n => if 2 ≤ n then ilog2Aux fuel (n / 2) + 1 else 0

/-- Rust `usize::ilog2`: `⌊log₂ n⌋` for `n ≥ 1`. -/
def ilog2 (n : Nat) : Nat := ilog2Aux n n

/-- Pad a partial block with a single `0x80` byte and zero bytes up to the
block width `B` (`m[n] = 0x80` in `finalize_xof_core`, and the key padding of
`KeyInit::new`). -/
def padBlock (B : Nat) (data : List Nat) : List Nat :=
  data ++ 0x80 :: List.replicate (B - (data.length + 1)) 0

/-- Eager block chunking, fuel-driven: split `data` into the full blocks the
eager block buffer hands to `update_blocks` plus the buffered partial tail. -/
def chunksGo (B : Nat) : Nat → List Nat → List (List Nat) × List Nat
  | 0, data => ([], data)
  | fuel + 1, data =>
    if 0 < B ∧ B ≤ data.length then
      let rest := chunksGo B fuel (data.drop B)
      (data.take B :: rest.1, rest.2)
    else ([], data)

/-- Split `data` into full `B`-blocks and the remaining tail (the state of the
eager `BlockBuffer` after `digest_blocks`). -/
def chunkBlocks (B : Nat) (data : List Nat) : List (List Nat) × List Nat :=
  chunksGo B data.length data

/-- Parameters of one `Farfalle` instantiation: the block width and the six
permutation / rolling functions (`Pb`, `Pc`, `Pd`, `Pe`, `Rc`, `Re`).  The
Rust `Permutation` trait transforms a fixed-width array in place, so each
function is required to preserve length. -/
structure FarfalleP where
  B : Nat
  hB : 0 < B
  pb : List Nat → List Nat
  pc : List Nat → List Nat
  pd : List Nat → List Nat
  pe : List Nat → List Nat
  rc : List Nat → List Nat
  re : List Nat → List Nat
  hpb : ∀ l, (pb l).length = l.length
  hpc : ∀ l, (pc l).length = l.length
  hpd : ∀ l, (pd l).length = l.length
  hpe : ∀ l, (pe l).length = l.length
  hrc : ∀ l, (rc l).length = l.length
  hre : ∀ l, (re l).length = l.length

/-- The mutable state of `Farfalle`: the key mask `k` and the accumulator `x`. -/
structure FSt where
  k : List Nat
  x : List Nat
  deriving DecidableEq, Repr

/-- Well-formedness: both state words have the block width. -/
def FSt.Wf (P : FarfalleP) (s : FSt) : Prop :=
  s.k.length = P.B ∧ s.x.length = P.B

instance (P : FarfalleP) (s : FSt) : Decidable (FSt.Wf P s) := by
  unfold FSt.Wf; infer_instance

/-- `Farfalle::update_block`: xor the mask into the block, roll the mask with
`Rc`, apply `Pc`, and xor the result into the accumulator. -/
def update_block (P : FarfalleP) (s : FSt) (m : List Nat) : FSt :=
  { k := P.rc s.k, x := xorBytes s.x (P.pc (xorBytes m s.k)) }

/-- Absorb a list of full blocks (`update_blocks`). -/
def absorbBlocks (P : FarfalleP) (s : FSt) : List (List Nat) → FSt
  | [] => s
  | b :: bs => absorbBlocks P (update_block P s b) bs

/-- `Farfalle as KeyInit::new`: pad the key with `0x80` and zeros to block
width, derive the mask through `Pb`; the accumulator starts at zero. -/
def farfalleInit (P : FarfalleP) (key : List Nat) : FSt :=
  { k := P.pb (padBlock P.B key), x := List.replicate P.B 0 }

/-- The expansion reader state `FarfalleXofCore`: frozen mask `k` and rolling
output state `y`. -/
structure RSt where
  k : List Nat
  y : List Nat
  deriving DecidableEq, Repr

/-- Reader well-formedness. -/
def RSt.Wf (P : FarfalleP) (r : RSt) : Prop :=
  r.k.length = P.B ∧ r.y.length = P.B

instance (P : FarfalleP) (r : RSt) : Decidable (RSt.Wf P r) := by
  unfold RSt.Wf; infer_instance

/-- `FarfalleXofCore::read_block`: output `Pe(y) ⊕ k` (the reader then rolls
`y` with `Re`, see `readerNext`). -/
def read_block (P : FarfalleP) (r : RSt) : List Nat :=
  xorBytes (P.pe r.y) r.k

/-- The reader state after one `read_block`: `y` rolled by `Re`. -/
def readerNext (P : FarfalleP) (r : RSt) : RSt :=
  { r with y := P.re r.y }

/-- The first `n` output blocks of a reader. -/
def readerBlocks (P : FarfalleP) (r : RSt) : Nat → List (List Nat)
  | 0 => []
  | n + 1 => read_block P r :: readerBlocks P (readerNext P r) n

/-- The reader after `n` blocks have been read. -/
def readerAfter (P : FarfalleP) (r : RSt) : Nat → RSt
  | 0 => r
  | n + 1 => readerAfter P (readerNext P r) n

/-- `Farfalle::finalize_xof_core` with buffered tail `tail`: if the tail is
non-empty, pad it and run it through `update_block`; then roll `k` once more
and build the reader from `(k, Pd(x))`.  Returns the updated deck state (which
keeps absorbing, "doubly extendable") and the reader. -/
def finalize_xof (P : FarfalleP) (s : FSt) (tail : List Nat) : FSt × RSt :=
  let s1 := if tail.length ≠ 0 then update_block P s (padBlock P.B tail) else s
  let k2 := P.rc s1.k
  ({ s1 with k := k2 }, { k := k2, y := P.pd s1.x })

/-- Absorb a byte string through the eager block buffer and finalize
(`digest_blocks` followed by `finalize_xof_core`). -/
def absorbFinalize (P : FarfalleP) (s : FSt) (data : List Nat) : FSt × RSt :=
  let c := chunkBlocks P.B data
  finalize_xof P (absorbBlocks P s c.1) c.2

/-- `apply_padded` of sane.rs / sanse.rs: digest `m`, then the one-byte
delimiter `sep`, then finalize into a reader. -/
def apply_padded (P : FarfalleP) (s : FSt) (m : List Nat) (sep : Nat) : FSt × RSt :=
  absorbFinalize P s (m ++ [sep])

/-- The first `n` bytes of a reader's output stream (the one-shot `KeyStream`
of sanse.rs reads whole blocks and uses a prefix of the last one; byte for
byte that is the prefix of the concatenated block stream). -/
def ksBytes (P : FarfalleP) (r : RSt) (n : Nat) : List Nat :=
  ((readerBlocks P r (divCeil n P.B)).flatten).take n

/-- `KeyStream::xor_in2out`: xor the keystream over a whole buffer. -/
def ksXor (P : FarfalleP) (r : RSt) (buf : List Nat) : List Nat :=
  xorBytes buf (ksBytes P r buf.length)

/-- Modelled from the spec: the crate's `xorbuffer::XofReaderCoreWrapperXor`
(the module is not part of src/) wraps a reader core with a byte cursor; per
the spec a keystream reader "produces an unbounded byte stream; each read
advances `y`, so a reader is a single-use, non-restartable cursor".  `buf`
holds the not-yet-consumed bytes of the last block read. -/
structure XR where
  r : RSt
  buf : List Nat
  deriving DecidableEq, Repr

/-- Cursor reader well-formedness: the underlying reader is well-formed. -/
def XR.Wf (P : FarfalleP) (x : XR) : Prop := RSt.Wf P x.r

instance (P : FarfalleP) (x : XR) : Decidable (XR.Wf P x) := by
  unfold XR.Wf; infer_instance

/-- Modelled from the spec: draw `n` bytes from the cursor reader, serving
buffered bytes first and then whole fresh blocks, keeping the unread bytes of
the last block buffered. -/
def xdraw (P : FarfalleP) (x : XR) (n : Nat) : List Nat × XR :=
  let nb := divCeil (n - x.buf.length) P.B
  let stream := x.buf ++ (readerBlocks P x.r nb).flatten
  (stream.take n, { r := readerAfter P x.r nb, buf := stream.drop n })

/-- Modelled from the spec: `XofReaderCoreWrapperXor::xor`, xoring the next
`buf.length` keystream bytes over `buf` in place. -/
def xorReader (P : FarfalleP) (x : XR) (buf : List Nat) : List Nat × XR :=
  let d := xdraw P x buf.length
  (xorBytes buf d.1, d.2)

/-! ## Deck-SANSE (sanse.rs) -/

/-- `DeckSanse` state: the history deck `d` and the direction bit `e`
(stored in bit 5, `0x20`). -/
structure SanseSt where
  d : FSt
  e : Nat
  deriving DecidableEq, Repr

/-- `DeckSanse::init`. -/
def sanseInit (P : FarfalleP) (key : List Nat) : SanseSt :=
  { d := farfalleInit P key, e := 0 }

/-- `DeckSanse::encrypt_inout_detached`.  Returns the new session state, the
buffer contents after the call (ciphertext), and the tag. -/
def sanseEncrypt (P : FarfalleP) (ts : Nat) (s : SanseSt) (ad pt : List Nat) :
    SanseSt × List Nat × List Nat :=
  let e := s.e
  let e2 := e ^^^ 0x20
  if pt.length = 0 then
    let fr := apply_padded P s.d ad e
    ({ d := fr.1, e := e2 }, pt, ksBytes P fr.2 ts)
  else
    let d1 := if ad.length ≠ 0 then (apply_padded P s.d ad e).1 else s.d
    let dcopy := d1
    let ft := apply_padded P d1 pt (e ||| 0x40)
    let tag := ksBytes P ft.2 ts
    let fk := apply_padded P dcopy tag (e ||| 0xc0)
    ({ d := ft.1, e := e2 }, ksXor P fk.2 pt, tag)

/-- `DeckSanse::decrypt_inout_detached`.  Returns the new session state, the
buffer contents after the call, and whether the tag verified. -/
def sanseDecrypt (P : FarfalleP) (ts : Nat) (s : SanseSt) (ad ct tag : List Nat) :
    SanseSt × List Nat × Bool :=
  let e := s.e
  let e2 := e ^^^ 0x20
  if ct.length = 0 then
    let fr := apply_padded P s.d ad e
    let actual := ksBytes P fr.2 ts
    ({ d := fr.1, e := e2 }, ct, decide (tag = actual))
  else
    let d1 := if ad.length ≠ 0 then (apply_padded P s.d ad e).1 else s.d
    let dcopy := d1
    let fk := apply_padded P dcopy tag (e ||| 0xc0)
    let pt := ksXor P fk.2 ct
    let ft := apply_padded P d1 pt (e ||| 0x40)
    let actual := ksBytes P ft.2 ts
    if tag = actual then ({ d := ft.1, e := e2 }, pt, true)
    else ({ d := ft.1, e := e2 }, ksXor P fk.2 pt, false)

/-- Run a sequence of SANSE encrypt calls; collect `(ciphertext, tag)`. -/
def sanseEncSteps (P : FarfalleP) (ts : Nat) (s : SanseSt) :
    List (List Nat × List Nat) → SanseSt × List (List Nat × List Nat)
  | [] => (s, [])
  | m :: rest =>
    let r := sanseEncrypt P ts s m.1 m.2
    let tl := sanseEncSteps P ts r.1 rest
    (tl.1, (r.2.1, r.2.2) :: tl.2)

/-! ## Deck-SANE (sane.rs) -/

/-- `DeckSane` state: history deck `d`, current keystream cursor `k`, and the
direction bit `e` (stored in bit 6, `0x40`). -/
structure SaneSt where
  d : FSt
  k : XR
  e : Nat
  deriving DecidableEq, Repr

/-- SANE session well-formedness. -/
def SaneSt.Wf (P : FarfalleP) (s : SaneSt) : Prop :=
  FSt.Wf P s.d ∧ XR.Wf P s.k

instance (P : FarfalleP) (s : SaneSt) : Decidable (SaneSt.Wf P s) := by
  unfold SaneSt.Wf; infer_instance

/-- Loop of `consume_tag`: `while offset > BlockSize` keep xoring `TagSize`
keystream bytes into the tag and subtracting the block size from `offset`.
Fuel-driven; the initial call passes `offset` itself as fuel, which suffices
because each iteration removes `P.B ≥ 1`. -/
def consumeLoopGo (P : FarfalleP) : Nat → List Nat → XR → Nat → (List Nat × XR) × Nat
  | 0, tag, x, offset => ((tag, x), offset)
  | fuel + 1, tag, x, offset =>
    if P.B < offset then
      let d := xorReader P x tag
      consumeLoopGo P fuel d.1 d.2 (offset - P.B)
    else ((tag, x), offset)

/-- `consume_tag` of sane.rs: draw `TagSize` bytes as the tag, then keep
drawing per the (block-size-decremented) offset loop, and finally draw the
remaining `offset` bytes into a spare buffer. -/
def consume_tag (P : FarfalleP) (ts al : Nat) (x : XR) : List Nat × XR :=
  let offset0 := nextMultipleOf al ts
  let d0 := xorReader P x (List.replicate ts 0)
  let offset1 := offset0 - ts
  let lp := consumeLoopGo P offset1 d0.1 d0.2 offset1
  if 0 < lp.2 then
    let d1 := xdraw P lp.1.2 lp.2
    (lp.1.1, d1.2)
  else lp.1

/-- `DeckSane as KeyIvInit::new`: derive the deck from the key, absorb the iv,
finalize, and consume-and-align the initial reader. -/
def saneInit (P : FarfalleP) (ts al : Nat) (key iv : List Nat) : SaneSt :=
  let d0 := farfalleInit P key
  let fr := absorbFinalize P d0 iv
  let ct := consume_tag P ts al { r := fr.2, buf := [] }
  { d := fr.1, k := ct.2, e := 0 }

/-- `apply_ad_ct` of sane.rs: absorb associated data (delimiter `e|0x20`) and
ciphertext (delimiter `e|0xa0`) into the history; if the ciphertext is empty
only the associated data is absorbed, otherwise the associated data is
absorbed only when non-empty. -/
def apply_ad_ct (P : FarfalleP) (d : FSt) (e : Nat) (ad ct : List Nat) : FSt × RSt :=
  if ct.length = 0 then
    apply_padded P d ad (e ||| 0x20)
  else
    let d1 := if ad.length ≠ 0 then (apply_padded P d ad (e ||| 0x20)).1 else d
    apply_padded P d1 ct (e ||| 0xa0)

/-- `DeckSane::encrypt_inout_detached`: xor the session keystream over the
buffer, absorb ad/ciphertext, flip `e`, draw the tag from the fresh reader and
install it as the new keystream.  Returns (state, ciphertext, tag). -/
def saneEncrypt (P : FarfalleP) (ts : Nat) (s : SaneSt) (ad pt : List Nat) :
    SaneSt × List Nat × List Nat :=
  let c := xorReader P s.k pt
  let ct := c.1
  let fr := apply_ad_ct P s.d s.e ad ct
  let e2 := s.e ^^^ 0x40
  let t := xorReader P { r := fr.2, buf := [] } (List.replicate ts 0)
  ({ d := fr.1, k := t.2, e := e2 }, ct, t.1)

/-- `DeckSane::decrypt_inout_detached`: absorb ad/ciphertext, flip `e`,
compute the expected tag from the unmodified ciphertext; on mismatch return
failure leaving the buffer and session keystream untouched, otherwise xor the
prior keystream over the buffer and install the new one.  Returns
(state, buffer contents after the call, verified). -/
def saneDecrypt (P : FarfalleP) (ts : Nat) (s : SaneSt) (ad ct tag : List Nat) :
    SaneSt × List Nat × Bool :=
  let fr := apply_ad_ct P s.d s.e ad ct
  let e2 := s.e ^^^ 0x40
  let t := xorReader P { r := fr.2, buf := [] } (List.replicate ts 0)
  if tag = t.1 then
    let p := xorReader P s.k ct
    ({ d := fr.1, k := t.2, e := e2 }, p.1, true)
  else
    ({ d := fr.1, k := s.k, e := e2 }, ct, false)

/-- Run a sequence of SANE encrypt calls; collect `(ciphertext, tag)`. -/
def saneEncSteps (P : FarfalleP) (ts : Nat) (s : SaneSt) :
    List (List Nat × List Nat) → SaneSt × List (List Nat × List Nat)
  | [] => (s, [])
  | m :: rest =>
    let r := saneEncrypt P ts s m.1 m.2
    let tl := saneEncSteps P ts r.1 rest
    (tl.1, (r.2.1, r.2.2) :: tl.2)

/-- Run a sequence of SANE decrypt calls on `(ad, ct, tag)` triples; collect
the buffer contents after each call and the verification verdict. -/
def saneDecSteps (P : FarfalleP) (ts : Nat) (s : SaneSt) :
    List (List Nat × List Nat × List Nat) → SaneSt × List (List Nat × Bool)
  | [] => (s, [])
  | m :: rest =>
    let r := saneDecrypt P ts s m.1 m.2.1 m.2.2
    let tl := saneDecSteps P ts r.1 rest
    (tl.1, (r.2.1, r.2.2) :: tl.2)

/-! ## Wide block cipher (wbc.rs) -/

/-- `split` of wbc.rs (named `wbcSplit` here): the split point for a buffer of
length `n`, given block size `b` and alignment `l`.  The Rust expression
`(q - 1 << x) * b - l` parses as `((q - 1) <<< x) * b - l`. -/
def wbcSplit (b l n : Nat) : Nat :=
  if n ≤ 2 * b - (l + 2) then
    ((n + l) / (2 * l)) * l
  else
    let q := divCeil (n + l + 1) b
    let x := ilog2 (q - 1)
    ((q - 1) <<< x) * b - l

/-- The split formula exactly as the specification states it (claim C3):
`round((n+L)/(2L))·L` in the first branch -- round-half-up of the rational
`(n+L)/(2L)` is `⌊(n+2L)/(2L)⌋` -- and `((q-1) − 2^x)·B − L` in the second. -/
def wbcSplitSpecC3 (b l n : Nat) : Nat :=
  if n ≤ 2 * b - (l + 2) then
    ((n + 2 * l) / (2 * l)) * l
  else
    let q := divCeil (n + l + 1) b
    let x := ilog2 (q - 1)
    ((q - 1) - 2 ^ x) * b - l

/-- Keystream bytes for one wide-block-cipher pass: absorb `m` with delimiter
`sep` into (a clone of) deck `d`, finalize, and read `n` bytes. -/
def ksFor (P : FarfalleP) (d : FSt) (m : List Nat) (sep n : Nat) : List Nat :=
  ksBytes P (apply_padded P d m sep).2 n

/-- Xor `cnt` pass-keystream bytes over the first `cnt` bytes of `buf`
(the `split_at_mut(min(b, …))` prefix passes of wbc.rs). -/
def xorFront (P : FarfalleP) (d : FSt) (m : List Nat) (sep cnt : Nat)
    (buf : List Nat) : List Nat :=
  xorBytes (buf.take cnt) (ksFor P d m sep cnt) ++ buf.drop cnt

/-- The deck `G` after the tweak has been absorbed and the discarded finalize
has run (this still rolls `k`, and pads the tweak tail if non-empty). -/
def wbcTweak (P : FarfalleP) (g : FSt) (tweak : List Nat) : FSt :=
  (absorbFinalize P g tweak).1

/-- `WideBlockCipher::encrypt_inout`: the four-pass unbalanced network.
Returns `none` where the Rust code panics (`split_at_mut` with a split point
past the end of the buffer). -/
def wbcEncrypt (P : FarfalleP) (l : Nat) (g h : FSt) (tweak buf : List Nat) :
    Option (List Nat) :=
  let gt := wbcTweak P g tweak
  let n := buf.length
  let s := wbcSplit P.B l n
  if s ≤ n then
    let left0 := buf.take s
    let right0 := buf.drop s
    let right1 := xorFront P h left0 0x00 (min P.B (n - s)) right0
    let left1 := xorBytes left0 (ksFor P gt right1 0x80 left0.length)
    let right2 := xorBytes right1 (ksFor P gt left1 0x00 right1.length)
    let left2 := xorFront P h right2 0x80 (min P.B s) left1
    some (left2 ++ right2)
  else none

/-- `WideBlockCipher::decrypt_inout`: the same four keystream derivations in
reverse pass order. -/
def wbcDecrypt (P : FarfalleP) (l : Nat) (g h : FSt) (tweak buf : List Nat) :
    Option (List Nat) :=
  let gt := wbcTweak P g tweak
  let n := buf.length
  let s := wbcSplit P.B l n
  if s ≤ n then
    let left0 := buf.take s
    let right0 := buf.drop s
    let left1 := xorFront P h right0 0x80 (min P.B s) left0
    let right1 := xorBytes right0 (ksFor P gt left1 0x00 right0.length)
    let left2 := xorBytes left1 (ksFor P gt right1 0x80 left1.length)
    let right2 := xorFront P h left2 0x00 (min P.B (n - s)) right1
    some (left2 ++ right2)
  else none

/-- `WideBlockCipherAuthenticated::encrypt_in_place`: append `T` zero bytes
and run the network. -/
def wbcAuthEncrypt (P : FarfalleP) (l T : Nat) (g h : FSt) (tweak buf : List Nat) :
    Option (List Nat) :=
  wbcEncrypt P l g h tweak (buf ++ List.replicate T 0)

/-- `WideBlockCipherAuthenticated::decrypt_in_place`: reject buffers shorter
than the tag, run the inverse network, check the trailing `T` bytes are zero
in constant time; on mismatch re-encrypt (restoring the ciphertext) and fail;
on success truncate.  Returns `some (verified, buffer contents)`, or `none`
where the Rust code panics. -/
def wbcAuthDecrypt (P : FarfalleP) (l T : Nat) (g h : FSt) (tweak buf : List Nat) :
    Option (Bool × List Nat) :=
  if buf.length < T then some (false, buf)
  else
    let n := buf.length - T
    match wbcDecrypt P l g h tweak buf with
    | none => none
    | some dec =>
      if dec.drop n = List.replicate T 0 then some (true, dec.take n)
      else
        match wbcEncrypt P l g h tweak dec with
        | none => none
        | some reenc => some (false, reenc)

/-! ## Concrete instantiations for witnesses and counterexamples

Identity permutations at tiny block widths; well-formed instances of the
`FarfalleP` parameter structure (the `Permutation` trait allows any
length-preserving transform). -/

/-- Identity-permutation instance at block width 1. -/
def Pid1 : FarfalleP :=
  { B := 1, hB := Nat.one_pos,
    pb := id, pc := id, pd := id, pe := id, rc := id, re := id,
    hpb := fun _ => rfl, hpc := fun _ => rfl, hpd := fun _ => rfl,
    hpe := fun _ => rfl, hrc := fun _ => rfl, hre := fun _ => rfl }

/-- Identity-permutation instance at block width 2. -/
def Pid2 : FarfalleP :=
  { B := 2, hB := Nat.zero_lt_two,
    pb := id, pc := id, pd := id, pe := id, rc := id, re := id,
    hpb := fun _ => rfl, hpc := fun _ => rfl, hpd := fun _ => rfl,
    hpe := fun _ => rfl, hrc := fun _ => rfl, hre := fun _ => rfl }

/-- Identity-permutation instance at block width 4. -/
def Pid4 : FarfalleP :=
  { B := 4, hB := by decide,
    pb := id, pc := id, pd := id, pe := id, rc := id, re := id,
    hpb := fun _ => rfl, hpc := fun _ => rfl, hpd := fun _ => rfl,
    hpe := fun _ => rfl, hrc := fun _ => rfl, hre := fun _ => rfl }

/-! ## Basic lemmas: xor cancellation and length bookkeeping -/

theorem xorBytes_length (a b : List Nat) :
    (xorBytes a b).length = min a.length b.length := by
  simp [xorBytes]

theorem xorBytes_cancel (a b : List Nat) (h : a.length ≤ b.length) :
    xorBytes (xorBytes a b) b = a := by
  induction a generalizing b with
  | nil => simp [xorBytes]
  | cons x xs ih =>
    cases b with
    | nil => simp at h
    | cons y ys =>
      simp only [List.length_cons, Nat.succ_le_succ_iff] at h
      simp only [xorBytes, List.zipWith_cons_cons]
      rw [Nat.xor_cancel_right]
      exact congrArg (x :: ·) (ih ys h)

theorem take_len_append (a b : List Nat) {n : Nat} (h : a.length = n) :
    (a ++ b).take n = a := by
  subst h; exact List.take_left a b

theorem drop_len_append (a b : List Nat) {n : Nat} (h : a.length = n) :
    (a ++ b).drop n = b := by
  subst h; exact List.drop_left a b

theorem padBlock_length {B : Nat} {data : List Nat} (h : data.length < B) :
    (padBlock B data).length = B := by
  simp only [padBlock, List.length_append, List.length_cons, List.length_replicate]
  omega

theorem divCeil_mul_ge {a b : Nat} (hb : 0 < b) : a ≤ divCeil a b * b := by
  unfold divCeil
  rw [Nat.mul_comm]
  have h1 := Nat.div_add_mod (a + b - 1) b
  have h2 := Nat.mod_lt (a + b - 1) hb
  omega

theorem chunksGo_spec {B : Nat} (hB : 0 < B) :
    ∀ fuel data, data.length ≤ fuel →
      (∀ bl ∈ (chunksGo B fuel data).1, bl.length = B) ∧
      (chunksGo B fuel data).2.length < B := by
  intro fuel
  induction fuel with
  | zero =>
    intro data h
    constructor
    · intro bl hbl; simp [chunksGo] at hbl
    · simp only [chunksGo]
      omega
  | succ f ih =>
    intro data h
    by_cases hc : B ≤ data.length
    · have hcond : 0 < B ∧ B ≤ data.length := ⟨hB, hc⟩
      simp only [chunksGo, if_pos hcond]
      have hlen : (data.drop B).length ≤ f := by
        simp only [List.length_drop]; omega
      obtain ⟨h1, h2⟩ := ih (data.drop B) hlen
      refine ⟨?_, h2⟩
      intro bl hbl
      rcases List.mem_cons.mp hbl with hbl | hbl
      · subst hbl; simp only [List.length_take]; omega
      · exact h1 bl hbl
    · have hcond : ¬(0 < B ∧ B ≤ data.length) := by tauto
      simp only [chunksGo, if_neg hcond]
      exact ⟨by intro bl hbl; simp at hbl, by omega⟩

theorem chunkBlocks_blocks {B : Nat} (hB : 0 < B) (data : List Nat) :
    ∀ bl ∈ (chunkBlocks B data).1, bl.length = B :=
  (chunksGo_spec hB data.length data le_rfl).1

theorem chunkBlocks_tail {B : Nat} (hB : 0 < B) (data : List Nat) :
    (chunkBlocks B data).2.length < B :=
  (chunksGo_spec hB data.length data le_rfl).2

/-! ## Well-formedness preservation -/

theorem update_block_wf {P : FarfalleP} {s : FSt} {m : List Nat}
    (hs : FSt.Wf P s) (hm : m.length = P.B) : FSt.Wf P (update_block P s m) := by
  obtain ⟨hk, hx⟩ := hs
  constructor
  · simp [update_block, P.hrc, hk]
  · simp [update_block, xorBytes_length, P.hpc, hx, hk, hm]

theorem absorbBlocks_wf {P : FarfalleP} {bs : List (List Nat)} :
    ∀ {s : FSt}, FSt.Wf P s → (∀ bl ∈ bs, bl.length = P.B) →
      FSt.Wf P (absorbBlocks P s bs) := by
  induction bs with
  | nil => intro s hs _; exact hs
  | cons b bs ih =>
    intro s hs hb
    exact ih (update_block_wf hs (hb b (List.mem_cons_self b bs)))
      (fun bl hbl => hb bl (List.mem_cons_of_mem b hbl))

theorem finalize_xof_wf {P : FarfalleP} {s : FSt} {tail : List Nat}
    (hs : FSt.Wf P s) (ht : tail.length < P.B) :
    FSt.Wf P (finalize_xof P s tail).1 ∧ RSt.Wf P (finalize_xof P s tail).2 := by
  have hs1 : FSt.Wf P (if tail.length ≠ 0 then update_block P s (padBlock P.B tail) else s) := by
    split
    · exact update_block_wf hs (padBlock_length ht)
    · exact hs
  refine ⟨⟨?_, ?_⟩, ⟨?_, ?_⟩⟩
  · show (P.rc _).length = P.B
    rw [P.hrc]; exact hs1.1
  · exact hs1.2
  · show (P.rc _).length = P.B
    rw [P.hrc]; exact hs1.1
  · show (P.pd _).length = P.B
    rw [P.hpd]; exact hs1.2

theorem absorbFinalize_wf {P : FarfalleP} {s : FSt} (data : List Nat)
    (hs : FSt.Wf P s) :
    FSt.Wf P (absorbFinalize P s data).1 ∧ RSt.Wf P (absorbFinalize P s data).2 := by
  unfold absorbFinalize
  exact finalize_xof_wf
    (absorbBlocks_wf hs (chunkBlocks_blocks P.hB data))
    (chunkBlocks_tail P.hB data)

theorem apply_padded_wf {P : FarfalleP} {s : FSt} (m : List Nat) (sep : Nat)
    (hs : FSt.Wf P s) :
    FSt.Wf P (apply_padded P s m sep).1 ∧ RSt.Wf P (apply_padded P s m sep).2 :=
  absorbFinalize_wf (m ++ [sep]) hs

theorem farfalleInit_wf {P : FarfalleP} {key : List Nat} (h : key.length < P.B) :
    FSt.Wf P (farfalleInit P key) :=
  ⟨by simp [farfalleInit, P.hpb, padBlock_length h], by simp [farfalleInit]⟩

/-! ## Reader length lemmas -/

theorem read_block_length {P : FarfalleP} {r : RSt} (hr : RSt.Wf P r) :
    (read_block P r).length = P.B := by
  simp [read_block, xorBytes_length, P.hpe, hr.1, hr.2]

theorem readerNext_wf {P : FarfalleP} {r : RSt} (hr : RSt.Wf P r) :
    RSt.Wf P (readerNext P r) :=
  ⟨hr.1, by simp [readerNext, P.hre, hr.2]⟩

theorem readerAfter_wf {P : FarfalleP} (n : Nat) :
    ∀ {r : RSt}, RSt.Wf P r → RSt.Wf P (readerAfter P r n) := by
  induction n with
  | zero => intro r hr; exact hr
  | succ n ih => intro r hr; exact ih (readerNext_wf hr)

theorem readerBlocks_flatten_length {P : FarfalleP} (n : Nat) :
    ∀ {r : RSt}, RSt.Wf P r → ((readerBlocks P r n).flatten).length = n * P.B := by
  induction n with
  | zero => intro r _; simp [readerBlocks]
  | succ n ih =>
    intro r hr
    simp only [readerBlocks, List.flatten_cons, List.length_append,
      read_block_length hr, ih (readerNext_wf hr)]
    ring

theorem ksBytes_length {P : FarfalleP} {r : RSt} (hr : RSt.Wf P r) (n : Nat) :
    (ksBytes P r n).length = n := by
  simp only [ksBytes, List.length_take,
    readerBlocks_flatten_length (divCeil n P.B) hr]
  have := divCeil_mul_ge (a := n) P.hB
  omega

theorem ksXor_length {P : FarfalleP} {r : RSt} (hr : RSt.Wf P r) (buf : List Nat) :
    (ksXor P r buf).length = buf.length := by
  simp [ksXor, xorBytes_length, ksBytes_length hr]

theorem ksXor_cancel {P : FarfalleP} {r : RSt} (hr : RSt.Wf P r) (buf : List Nat) :
    ksXor P r (ksXor P r buf) = buf := by
  have h1 : (ksXor P r buf).length = buf.length := ksXor_length hr buf
  show xorBytes (ksXor P r buf) (ksBytes P r (ksXor P r buf).length) = buf
  rw [h1]
  show xorBytes (xorBytes buf (ksBytes P r buf.length)) (ksBytes P r buf.length) = buf
  exact xorBytes_cancel buf _ (le_of_eq (ksBytes_length hr buf.length).symm)

theorem xdraw_fst_length {P : FarfalleP} {x : XR} (hx : XR.Wf P x) (n : Nat) :
    (xdraw P x n).1.length = n := by
  simp only [xdraw, List.length_take, List.length_append,
    readerBlocks_flatten_length (divCeil (n - x.buf.length) P.B) hx]
  have := divCeil_mul_ge (a := n - x.buf.length) P.hB
  omega

theorem xdraw_snd_wf {P : FarfalleP} {x : XR} (hx : XR.Wf P x) (n : Nat) :
    XR.Wf P (xdraw P x n).2 :=
  readerAfter_wf _ hx

theorem xorReader_fst_length {P : FarfalleP} {x : XR} (hx : XR.Wf P x)
    (buf : List Nat) : (xorReader P x buf).1.length = buf.length := by
  simp [xorReader, xorBytes_length, xdraw_fst_length hx]

theorem xorReader_snd_wf {P : FarfalleP} {x : XR} (hx : XR.Wf P x)
    (buf : List Nat) : XR.Wf P (xorReader P x buf).2 :=
  xdraw_snd_wf hx _

theorem xorReader_cancel {P : FarfalleP} {x : XR} (hx : XR.Wf P x)
    (buf : List Nat) : (xorReader P x (xorReader P x buf).1).1 = buf := by
  have h1 : (xorReader P x buf).1.length = buf.length := xorReader_fst_length hx buf
  show xorBytes (xorReader P x buf).1 (xdraw P x (xorReader P x buf).1.length).1 = buf
  rw [h1]
  show xorBytes (xorBytes buf (xdraw P x buf.length).1) (xdraw P x buf.length).1 = buf
  exact xorBytes_cancel buf _ (le_of_eq (xdraw_fst_length hx buf.length).symm)

/-! ## SANE session lemmas -/

theorem apply_ad_ct_wf {P : FarfalleP} {d : FSt} (hd : FSt.Wf P d)
    (e : Nat) (ad ct : List Nat) :
    FSt.Wf P (apply_ad_ct P d e ad ct).1 ∧ RSt.Wf P (apply_ad_ct P d e ad ct).2 := by
  by_cases hct : ct.length = 0
  · simp only [apply_ad_ct, if_pos hct]
    exact apply_padded_wf _ _ hd
  · simp only [apply_ad_ct, if_neg hct]
    have hd1 : FSt.Wf P (if ad.length ≠ 0 then (apply_padded P d ad (e ||| 0x20)).1 else d) := by
      split
      · exact (apply_padded_wf _ _ hd).1
      · exact hd
    exact apply_padded_wf _ _ hd1

theorem consumeLoopGo_wf {P : FarfalleP} :
    ∀ (fuel : Nat) (tag : List Nat) (x : XR) (offset : Nat), XR.Wf P x →
      XR.Wf P (consumeLoopGo P fuel tag x offset).1.2 := by
  intro fuel
  induction fuel with
  | zero => intro tag x offset hx; exact hx
  | succ f ih =>
    intro tag x offset hx
    by_cases h : P.B < offset
    · simp only [consumeLoopGo, if_pos h]
      exact ih _ _ _ (xorReader_snd_wf hx tag)
    · simp only [consumeLoopGo, if_neg h]
      exact hx

theorem consume_tag_wf {P : FarfalleP} {ts al : Nat} {x : XR} (hx : XR.Wf P x) :
    XR.Wf P (consume_tag P ts al x).2 := by
  have hl : XR.Wf P (consumeLoopGo P (nextMultipleOf al ts - ts)
      (xorReader P x (List.replicate ts 0)).1
      (xorReader P x (List.replicate ts 0)).2
      (nextMultipleOf al ts - ts)).1.2 :=
    consumeLoopGo_wf _ _ _ _ (xorReader_snd_wf hx _)
  simp only [consume_tag]
  split
  · exact xdraw_snd_wf hl _
  · exact hl

theorem saneInit_wf {P : FarfalleP} {ts al : Nat} {key iv : List Nat}
    (hkey : key.length < P.B) : SaneSt.Wf P (saneInit P ts al key iv) := by
  have hd := absorbFinalize_wf (P := P) iv (farfalleInit_wf hkey)
  exact ⟨hd.1, consume_tag_wf hd.2⟩

theorem saneEncrypt_wf {P : FarfalleP} {ts : Nat} {s : SaneSt}
    (hs : SaneSt.Wf P s) (ad pt : List Nat) :
    SaneSt.Wf P (saneEncrypt P ts s ad pt).1 := by
  have h := apply_ad_ct_wf hs.1 s.e ad (xorReader P s.k pt).1
  refine ⟨h.1, ?_⟩
  exact xorReader_snd_wf
    (x := { r := (apply_ad_ct P s.d s.e ad (xorReader P s.k pt).1).2, buf := [] })
    h.2 (List.replicate ts 0)

/-- One SANE call pair: decrypting what a session just encrypted, against the
identical session state, verifies and recovers the plaintext, and leaves the
mirrored session in the identical state. -/
theorem sane_enc_dec {P : FarfalleP} {ts : Nat} {s : SaneSt} (hs : SaneSt.Wf P s)
    (ad pt : List Nat) :
    saneDecrypt P ts s ad (saneEncrypt P ts s ad pt).2.1 (saneEncrypt P ts s ad pt).2.2
      = ((saneEncrypt P ts s ad pt).1, pt, true) := by
  simp only [saneEncrypt, saneDecrypt, if_true]
  rw [xorReader_cancel hs.2 pt]

/-- Mirrored-session invariant: decrypting a whole encrypted transcript, in
order, against an identical starting state, succeeds step by step. -/
theorem sane_steps (P : FarfalleP) (ts : Nat) :
    ∀ (msgs : List (List Nat × List Nat)) (s : SaneSt), SaneSt.Wf P s →
      saneDecSteps P ts s
        (List.zipWith (fun m o => (m.1, o.1, o.2)) msgs (saneEncSteps P ts s msgs).2)
      = ((saneEncSteps P ts s msgs).1, msgs.map (fun m => (m.2, true))) := by
  intro msgs
  induction msgs with
  | nil => intro s hs; rfl
  | cons m rest ih =>
    intro s hs
    have hstep := @sane_enc_dec P ts s hs m.1 m.2
    have hrest := ih (saneEncrypt P ts s m.1 m.2).1 (saneEncrypt_wf hs m.1 m.2)
    simp only [saneEncSteps, saneDecSteps, List.zipWith_cons_cons, hstep, hrest,
      List.map_cons]

/-! ## Wide block cipher lemmas -/

theorem ksFor_length {P : FarfalleP} {d : FSt} (hd : FSt.Wf P d)
    (m : List Nat) (sep n : Nat) : (ksFor P d m sep n).length = n :=
  ksBytes_length (apply_padded_wf m sep hd).2 n

theorem xorFront_length {P : FarfalleP} {d : FSt} (hd : FSt.Wf P d)
    (m : List Nat) (sep : Nat) {cnt : Nat} {buf : List Nat} (hc : cnt ≤ buf.length) :
    (xorFront P d m sep cnt buf).length = buf.length := by
  simp only [xorFront, List.length_append, xorBytes_length, ksFor_length hd,
    List.length_take, List.length_drop]
  omega

theorem xorFront_cancel {P : FarfalleP} {d : FSt} (hd : FSt.Wf P d)
    (m : List Nat) (sep : Nat) {cnt : Nat} {buf : List Nat} (hc : cnt ≤ buf.length) :
    xorFront P d m sep cnt (xorFront P d m sep cnt buf) = buf := by
  have hks : (ksFor P d m sep cnt).length = cnt := ksFor_length hd m sep cnt
  have h1 : (xorBytes (buf.take cnt) (ksFor P d m sep cnt)).length = cnt := by
    rw [xorBytes_length, hks, List.length_take]; omega
  show xorFront P d m sep cnt
      (xorBytes (buf.take cnt) (ksFor P d m sep cnt) ++ buf.drop cnt) = buf
  unfold xorFront
  rw [take_len_append _ _ h1, drop_len_append _ _ h1,
    xorBytes_cancel _ _ (by rw [hks, List.length_take]; exact Nat.min_le_left _ _),
    List.take_append_drop]

/-- The four wide-block-cipher decrypt passes, stage by stage: lengths are
preserved and each pass is undone by the corresponding encrypt pass (xor with
a re-derivable keystream is self-inverse). -/
theorem wbc_stage_cancel {P : FarfalleP} {gt h0 : FSt}
    (hgt : FSt.Wf P gt) (hh : FSt.Wf P h0) {s nr : Nat} {L0 R0 L1 R1 L2 R2 : List Nat}
    (hL0 : L0.length = s) (hR0 : R0.length = nr)
    (hL1 : L1 = xorFront P h0 R0 0x80 (min P.B s) L0)
    (hR1 : R1 = xorBytes R0 (ksFor P gt L1 0x00 R0.length))
    (hL2 : L2 = xorBytes L1 (ksFor P gt R1 0x80 L1.length))
    (hR2 : R2 = xorFront P h0 L2 0x00 (min P.B nr) R1) :
    L1.length = s ∧ R1.length = nr ∧ L2.length = s ∧ R2.length = nr ∧
    xorFront P h0 L2 0x00 (min P.B nr) R2 = R1 ∧
    xorBytes L2 (ksFor P gt R1 0x80 L2.length) = L1 ∧
    xorBytes R1 (ksFor P gt L1 0x00 R1.length) = R0 ∧
    xorFront P h0 R0 0x80 (min P.B s) L1 = L0 := by
  have len1 : L1.length = s := by
    rw [hL1, xorFront_length hh _ _ (hL0 ▸ Nat.min_le_right P.B s)]
    exact hL0
  have len2 : R1.length = nr := by
    rw [hR1, xorBytes_length, ksFor_length hgt]
    rw [Nat.min_self]
    exact hR0
  have len3 : L2.length = s := by
    rw [hL2, xorBytes_length, ksFor_length hgt]
    rw [Nat.min_self]
    exact len1
  have len4 : R2.length = nr := by
    rw [hR2, xorFront_length hh _ _ (len2 ▸ Nat.min_le_right P.B nr)]
    exact len2
  refine ⟨len1, len2, len3, len4, ?_, ?_, ?_, ?_⟩
  · rw [hR2]
    exact xorFront_cancel hh L2 0x00 (len2 ▸ Nat.min_le_right P.B nr)
  · have hcount : L2.length = L1.length := by
      rw [hL2, xorBytes_length, ksFor_length hgt, Nat.min_self]
    rw [hcount, hL2]
    exact xorBytes_cancel L1 _ (le_of_eq (ksFor_length hgt _ _ _).symm)
  · have hcount : R1.length = R0.length := by
      rw [hR1, xorBytes_length, ksFor_length hgt, Nat.min_self]
    rw [hcount, hR1]
    exact xorBytes_cancel R0 _ (le_of_eq (ksFor_length hgt _ _ _).symm)
  · rw [hL1]
    exact xorFront_cancel hh R0 0x80 (hL0 ▸ Nat.min_le_right P.B s)

/-- Re-encrypting a successful wide-block decryption restores the original
buffer: the failure path of `decrypt_in_place` relies on exactly this. -/
theorem wbc_enc_of_dec {P : FarfalleP} {l : Nat} {g h0 : FSt}
    (hg : FSt.Wf P g) (hh : FSt.Wf P h0) (tweak buf dec : List Nat)
    (hdec : wbcDecrypt P l g h0 tweak buf = some dec) :
    wbcEncrypt P l g h0 tweak dec = some buf := by
  have hgt : FSt.Wf P (wbcTweak P g tweak) := (absorbFinalize_wf tweak hg).1
  rcases le_or_lt (wbcSplit P.B l buf.length) buf.length with hs | hs
  · simp only [wbcDecrypt, if_pos hs, Option.some.injEq] at hdec
    have hL0 : (buf.take (wbcSplit P.B l buf.length)).length = wbcSplit P.B l buf.length := by
      rw [List.length_take]; omega
    have hR0 : (buf.drop (wbcSplit P.B l buf.length)).length
        = buf.length - wbcSplit P.B l buf.length := by
      rw [List.length_drop]
    obtain ⟨len1, len2, len3, len4, e1, e2, e3, e4⟩ :=
      wbc_stage_cancel hgt hh hL0 hR0 rfl rfl rfl rfl
    rw [← hdec]
    simp only [wbcEncrypt, List.length_append, len3, len4, Nat.add_sub_cancel' hs]
    rw [if_pos hs]
    rw [take_len_append _ _ len3, drop_len_append _ _ len3]
    rw [e1, e2, e3, e4, List.take_append_drop]
  · rw [wbcDecrypt, if_neg (Nat.not_le_of_lt hs)] at hdec
    exact Option.noConfusion hdec

/-! ## Failure-path restoration helpers -/

/-- SANSE failed decrypt re-applies the same SIV keystream, restoring the
caller's ciphertext bytes exactly. -/
theorem sanse_fail_restore {P : FarfalleP} {ts : Nat} {s : SanseSt}
    (hd : FSt.Wf P s.d) (ad ct tag : List Nat)
    (hf : (sanseDecrypt P ts s ad ct tag).2.2 = false) :
    (sanseDecrypt P ts s ad ct tag).2.1 = ct := by
  by_cases hct : ct.length = 0
  · have hc : ct = [] := List.length_eq_zero.mp hct
    subst hc
    simp [sanseDecrypt]
  · by_cases had : ad.length ≠ 0
    · simp only [sanseDecrypt, if_neg hct, if_pos had] at hf ⊢
      split at hf
      · simp at hf
      · next h =>
        rw [if_neg h]
        exact ksXor_cancel (apply_padded_wf _ _ (apply_padded_wf _ _ hd).1).2 ct
    · simp only [sanseDecrypt, if_neg hct, if_neg had] at hf ⊢
      split at hf
      · simp at hf
      · next h =>
        rw [if_neg h]
        exact ksXor_cancel (apply_padded_wf _ _ hd).2 ct

/-- Authenticated wide-block-cipher failed decrypt re-encrypts, restoring the
caller's buffer exactly. -/
theorem wbcAuth_fail_restore {P : FarfalleP} {l T : Nat} {g h0 : FSt}
    (hg : FSt.Wf P g) (hh : FSt.Wf P h0) (tweak buf out : List Nat)
    (hf : wbcAuthDecrypt P l T g h0 tweak buf = some (false, out)) :
    out = buf := by
  by_cases hlt : buf.length < T
  · simp only [wbcAuthDecrypt, if_pos hlt, Option.some.injEq, Prod.mk.injEq] at hf
    exact hf.2.symm
  · cases hdec : wbcDecrypt P l g h0 tweak buf with
    | none =>
      simp only [wbcAuthDecrypt, if_neg hlt, hdec] at hf
      exact Option.noConfusion hf
    | some dec =>
      simp only [wbcAuthDecrypt, if_neg hlt, hdec] at hf
      by_cases hz : dec.drop (buf.length - T) = List.replicate T 0
      · rw [if_pos hz] at hf
        simp only [Option.some.injEq, Prod.mk.injEq] at hf
        exact absurd hf.1 (by simp)
      · rw [if_neg hz] at hf
        cases henc : wbcEncrypt P l g h0 tweak dec with
        | none =>
          simp only [henc] at hf
          exact Option.noConfusion hf
        | some reenc =>
          simp only [henc, Option.some.injEq, Prod.mk.injEq] at hf
          have hid := wbc_enc_of_dec hg hh tweak buf dec hdec
          rw [henc, Option.some.injEq] at hid
          rw [← hf.2, hid]

/-! ## ilog2 characterization and direction-bit helpers -/

theorem ilog2Aux_spec :
    ∀ fuel n, 0 < n → n ≤ fuel →
      2 ^ ilog2Aux fuel n ≤ n ∧ n < 2 ^ (ilog2Aux fuel n + 1) := by
  intro fuel
  induction fuel with
  | zero => intro n h0 h1; omega
  | succ f ih =>
    intro n h0 h1
    by_cases h2 : 2 ≤ n
    · simp only [ilog2Aux, if_pos h2]
      have hrec := ih (n / 2) (by omega) (by omega)
      have hp1 : (2 : Nat) ^ (ilog2Aux f (n / 2) + 1) = 2 ^ ilog2Aux f (n / 2) * 2 :=
        pow_succ 2 _
      have hp2 : (2 : Nat) ^ (ilog2Aux f (n / 2) + 1 + 1)
          = 2 ^ (ilog2Aux f (n / 2) + 1) * 2 := pow_succ 2 _
      omega
    · simp only [ilog2Aux, if_neg h2]
      have hn : n = 1 := by omega
      subst hn
      decide

theorem ilog2_spec {n : Nat} (h : 0 < n) :
    2 ^ ilog2 n ≤ n ∧ n < 2 ^ (ilog2 n + 1) :=
  ilog2Aux_spec n n h le_rfl

theorem saneEncrypt_e (P : FarfalleP) (ts : Nat) (s : SaneSt) (ad pt : List Nat) :
    (saneEncrypt P ts s ad pt).1.e = s.e ^^^ 0x40 := rfl

theorem saneDecrypt_e (P : FarfalleP) (ts : Nat) (s : SaneSt) (ad ct tag : List Nat) :
    (saneDecrypt P ts s ad ct tag).1.e = s.e ^^^ 0x40 := by
  simp only [saneDecrypt]
  split <;> rfl

theorem sanseEncrypt_e (P : FarfalleP) (ts : Nat) (s : SanseSt) (ad pt : List Nat) :
    (sanseEncrypt P ts s ad pt).1.e = s.e ^^^ 0x20 := by
  simp only [sanseEncrypt]
  split <;> rfl

theorem sanseDecrypt_e (P : FarfalleP) (ts : Nat) (s : SanseSt) (ad ct tag : List Nat) :
    (sanseDecrypt P ts s ad ct tag).1.e = s.e ^^^ 0x20 := by
  simp only [sanseDecrypt]
  split
  · rfl
  · split <;> split <;> rfl

/-- States a `DeckSane` session can reach: freshly initialized, or the result
of any encrypt or decrypt call on a reachable state (decrypts count whether
they verify or not). -/
inductive SaneReach (P : FarfalleP) (ts al : Nat) : SaneSt → Prop where
  | init (key iv : List Nat) : SaneReach P ts al (saneInit P ts al key iv)
  | enc (s : SaneSt) (ad pt : List Nat) :
      SaneReach P ts al s → SaneReach P ts al (saneEncrypt P ts s ad pt).1
  | dec (s : SaneSt) (ad ct tag : List Nat) :
      SaneReach P ts al s → SaneReach P ts al (saneDecrypt P ts s ad ct tag).1

/-- States a `DeckSanse` session can reach. -/
inductive SanseReach (P : FarfalleP) (ts : Nat) : SanseSt → Prop where
  | init (key : List Nat) : SanseReach P ts (sanseInit P key)
  | enc (s : SanseSt) (ad pt : List Nat) :
      SanseReach P ts s → SanseReach P ts (sanseEncrypt P ts s ad pt).1
  | dec (s : SanseSt) (ad ct tag : List Nat) :
      SanseReach P ts s → SanseReach P ts (sanseDecrypt P ts s ad ct tag).1

/-- The finalize step exactly as claim C5 words it: the buffered tail is
always padded (`0x80` then zeros) and run through `update_block` exactly once,
even when zero-length; then `k` is rolled once more and the reader seed is
`Pd(x)`. -/
def finalizeSpecC5 (P : FarfalleP) (s : FSt) (tail : List Nat) : FSt × RSt :=
  let s1 := update_block P s (padBlock P.B tail)
  let k2 := P.rc s1.k
  ({ s1 with k := k2 }, { k := k2, y := P.pd s1.x })

/-! ## Claim theorems -/

/-- Claim C1: SANE round trip — for every parameter set, key (shorter than the
block width), IV, and sequence of (ad, plaintext) pairs, running the encrypts
on one freshly initialized `DeckSane` session and the matching decrypts in the
same order on a second session initialized with the same key and IV recovers
each plaintext exactly and every decrypt verifies. -/
theorem c1_sane_roundtrip (P : FarfalleP) (ts al : Nat) (key iv : List Nat)
    (msgs : List (List Nat × List Nat)) (hkey : key.length < P.B) :
    (saneDecSteps P ts (saneInit P ts al key iv)
      (List.zipWith (fun m o => (m.1, o.1, o.2)) msgs
        (saneEncSteps P ts (saneInit P ts al key iv) msgs).2)).2
    = msgs.map (fun m => (m.2, true)) := by
  rw [sane_steps P ts msgs _ (saneInit_wf hkey)]

/-- Witness for C1 at a concrete instantiation. -/
theorem c1_sane_roundtrip_witness :
    ([1] : List Nat).length < Pid2.B ∧
    (saneDecSteps Pid2 1 (saneInit Pid2 1 2 [1] [2])
      (List.zipWith (fun m o => (m.1, o.1, o.2)) [([3], [4, 5])]
        (saneEncSteps Pid2 1 (saneInit Pid2 1 2 [1] [2]) [([3], [4, 5])]).2)).2
    = [([4, 5], true)] :=
  ⟨by decide, c1_sane_roundtrip Pid2 1 2 [1] [2] [([3], [4, 5])] (by decide)⟩

/-- Claim C2: evaluation of the wide block cipher at a failing input.  With
block size 48 and alignment 16 (the crate's dimensions), a 100-byte buffer
makes `split` return 176 — past the end of the buffer, so `split_at_mut`
panics in `encrypt_inout` (the model returns `none` there); evaluated
end-to-end at block size 4, alignment 2, buffer length 8. -/
theorem c2_wbc_encrypt_panics :
    wbcSplit 48 16 100 = 176 ∧
    wbcEncrypt Pid4 2 (farfalleInit Pid4 []) (farfalleInit Pid4 [])
      [] (List.replicate 8 0) = none := by
  decide

/-- Claim C3 counterexample: at `B = 4`, `L = 2`, `n = 1` (which satisfy
`L ≥ 2` and `B % L = 0`) the code's split point differs from the formula the
specification states (`round((n+L)/(2L))·L`, and `((q−1) − 2^x)·B − L`). -/
theorem c3_split_counterexample : wbcSplit 4 2 1 ≠ wbcSplitSpecC3 4 2 1 := by
  decide

/-- Claim C3 (amended): the split point equals `⌊(n+L)/(2L)⌋·L` (floor, not
round) when `n ≤ 2B−(L+2)`, and otherwise `((q−1)·2^x)·B − L` (the Rust
expression `q - 1 << x` parses as `(q−1) << x`), where `q = ⌈(n+L+1)/B⌉` and
`x = ⌊log₂(q−1)⌋`, the floor logarithm being characterized by
`2^x ≤ q−1 < 2^(x+1)`. -/
theorem c3_split_amended :
    (∀ b l n, wbcSplit b l n =
      if n ≤ 2 * b - (l + 2) then ((n + l) / (2 * l)) * l
      else ((divCeil (n + l + 1) b - 1) * 2 ^ ilog2 (divCeil (n + l + 1) b - 1)) * b - l) ∧
    (∀ m, 0 < m → 2 ^ ilog2 m ≤ m ∧ m < 2 ^ (ilog2 m + 1)) := by
  constructor
  · intro b l n
    unfold wbcSplit
    split
    · rfl
    · simp only [Nat.shiftLeft_eq]
  · intro m hm
    exact ilog2_spec hm

/-- Witness for the amended C3 at concrete inputs. -/
theorem c3_split_amended_witness :
    (wbcSplit 4 2 1 =
      if 1 ≤ 2 * 4 - (2 + 2) then ((1 + 2) / (2 * 2)) * 2
      else ((divCeil (1 + 2 + 1) 4 - 1) * 2 ^ ilog2 (divCeil (1 + 2 + 1) 4 - 1)) * 4 - 2) ∧
    (0 < 3 ∧ 2 ^ ilog2 3 ≤ 3 ∧ 3 < 2 ^ (ilog2 3 + 1)) :=
  ⟨c3_split_amended.1 4 2 1, by decide, c3_split_amended.2 3 (by decide)⟩

/-- Claim C4 counterexample: an encrypt call does not consume-and-align the
fresh reader before installing it — with tag size 1, alignment 2 and block
width 2, the keystream installed by `encrypt_inout_detached` differs from the
one `consume_tag` (draw the tag, then keep drawing to the alignment target)
would install. -/
theorem c4_align_counterexample :
    (saneEncrypt Pid2 1 (saneInit Pid2 1 2 [] []) [] [7]).1.k ≠
    (consume_tag Pid2 1 2
      { r := (apply_ad_ct Pid2 (saneInit Pid2 1 2 [] []).d (saneInit Pid2 1 2 [] []).e
          [] (xorReader Pid2 (saneInit Pid2 1 2 [] []).k [7]).1).2, buf := [] }).2 := by
  decide

/-- Claim C4 (amended): only `init` consume-and-aligns its reader (via
`consume_tag`); each encrypt, and each successful decrypt, draws exactly
`TagSize` bytes — the tag — from the freshly finalized reader and installs it
as the session keystream, leaving `⌈TagSize/B⌉·B − TagSize` bytes of the last
block buffered. -/
theorem c4_tag_draw_amended (P : FarfalleP) (ts al : Nat) :
    (∀ s ad pt, (saneEncrypt P ts s ad pt).1.k =
      (xorReader P { r := (apply_ad_ct P s.d s.e ad (xorReader P s.k pt).1).2, buf := [] }
        (List.replicate ts 0)).2) ∧
    (∀ s ad ct tag, (saneDecrypt P ts s ad ct tag).2.2 = true →
      (saneDecrypt P ts s ad ct tag).1.k =
        (xorReader P { r := (apply_ad_ct P s.d s.e ad ct).2, buf := [] }
          (List.replicate ts 0)).2) ∧
    (∀ key iv, (saneInit P ts al key iv).k =
      (consume_tag P ts al { r := (absorbFinalize P (farfalleInit P key) iv).2, buf := [] }).2) ∧
    (∀ r : RSt, RSt.Wf P r →
      (xorReader P { r := r, buf := [] } (List.replicate ts 0)).2.buf.length
        = divCeil ts P.B * P.B - ts) := by
  refine ⟨fun s ad pt => rfl, ?_, fun key iv => rfl, ?_⟩
  · intro s ad ct tag hv
    simp only [saneDecrypt] at hv ⊢
    split at hv
    · next h => simp only [if_pos h]
    · simp at hv
  · intro r hr
    simp only [xorReader, xdraw, List.length_replicate, List.length_nil, Nat.sub_zero,
      List.nil_append, List.length_drop,
      readerBlocks_flatten_length (divCeil ts P.B) hr]

/-- Witness for the amended C4 at a concrete instantiation (including a
successful decrypt discharging the hypothesis of the decrypt clause). -/
theorem c4_tag_draw_amended_witness :
    (saneDecrypt Pid2 1 (saneInit Pid2 1 2 [] []) [] [7] [7]).2.2 = true ∧
    (saneDecrypt Pid2 1 (saneInit Pid2 1 2 [] []) [] [7] [7]).1.k =
      (xorReader Pid2 { r := (apply_ad_ct Pid2 (saneInit Pid2 1 2 [] []).d
          (saneInit Pid2 1 2 [] []).e [] [7]).2, buf := [] } (List.replicate 1 0)).2 ∧
    (xorReader Pid2 { r := (absorbFinalize Pid2 (farfalleInit Pid2 []) []).2, buf := [] }
        (List.replicate 1 0)).2.buf.length = divCeil 1 Pid2.B * Pid2.B - 1 :=
  ⟨by decide,
   (c4_tag_draw_amended Pid2 1 2).2.1 (saneInit Pid2 1 2 [] []) [] [7] [7] (by decide),
   (c4_tag_draw_amended Pid2 1 2).2.2.2 (absorbFinalize Pid2 (farfalleInit Pid2 []) []).2
     (by decide)⟩

/-- Claim C5 counterexample: with an empty buffered tail, `finalize_xof_core`
does not pad and absorb a block — its reader differs from the
always-pad-and-update reader the claim describes. -/
theorem c5_finalize_counterexample :
    finalize_xof Pid1 ⟨[0], [0]⟩ [] ≠ finalizeSpecC5 Pid1 ⟨[0], [0]⟩ [] := by
  decide

/-- Claim C5 (amended): finalize pads the buffered tail (`0x80` then zeros)
and runs it through `update` exactly once when — and only when — the tail is
non-empty; with an empty tail no padding block is processed.  In both cases
`k` is rolled exactly once more and the reader seed is `y = Pd(x)`. -/
theorem c5_finalize_amended (P : FarfalleP) (s : FSt) (tail : List Nat) :
    (tail.length ≠ 0 → finalize_xof P s tail = finalizeSpecC5 P s tail) ∧
    (tail.length = 0 → finalize_xof P s tail
      = ({ s with k := P.rc s.k }, { k := P.rc s.k, y := P.pd s.x })) := by
  constructor
  · intro h
    simp only [finalize_xof, finalizeSpecC5, if_pos h]
  · intro h
    simp only [finalize_xof, if_neg (not_not_intro h)]

/-- Witness for the amended C5 at concrete inputs. -/
theorem c5_finalize_amended_witness :
    (([1] : List Nat).length ≠ 0 ∧
      finalize_xof Pid1 ⟨[0], [0]⟩ [1] = finalizeSpecC5 Pid1 ⟨[0], [0]⟩ [1]) ∧
    (([] : List Nat).length = 0 ∧
      finalize_xof Pid1 ⟨[0], [0]⟩ []
        = ({ (⟨[0], [0]⟩ : FSt) with k := Pid1.rc [0] },
           { k := Pid1.rc [0], y := Pid1.pd [0] })) :=
  ⟨⟨by decide, (c5_finalize_amended Pid1 ⟨[0], [0]⟩ [1]).1 (by decide)⟩,
   ⟨rfl, (c5_finalize_amended Pid1 ⟨[0], [0]⟩ []).2 rfl⟩⟩

/-- Claim C6: failure-path buffer restoration — if a SANSE
`decrypt_inout_detached` reports an authentication failure the caller's
buffer holds the original ciphertext byte for byte (the same SIV keystream is
re-applied), and if the authenticated wide block cipher's `decrypt_in_place`
reports an authentication failure the buffer equals its pre-call contents
(it re-encrypts). -/
theorem c6_failure_restores_buffer (P : FarfalleP) :
    (∀ (ts : Nat) (s : SanseSt) (ad ct tag : List Nat), FSt.Wf P s.d →
      (sanseDecrypt P ts s ad ct tag).2.2 = false →
      (sanseDecrypt P ts s ad ct tag).2.1 = ct) ∧
    (∀ (l T : Nat) (g h0 : FSt) (tweak buf out : List Nat),
      FSt.Wf P g → FSt.Wf P h0 →
      wbcAuthDecrypt P l T g h0 tweak buf = some (false, out) → out = buf) := by
  constructor
  · intro ts s ad ct tag hd hf
    exact sanse_fail_restore hd ad ct tag hf
  · intro l T g h0 tweak buf out hg hh hf
    exact wbcAuth_fail_restore hg hh tweak buf out hf

/-- Witness for C6: a failing SANSE decrypt and a failing authenticated-WBC
decrypt at concrete instantiations, with the restored buffers. -/
theorem c6_failure_restores_buffer_witness :
    FSt.Wf Pid2 (sanseInit Pid2 []).d ∧
    (sanseDecrypt Pid2 1 (sanseInit Pid2 []) [] [7] [9]).2.2 = false ∧
    (sanseDecrypt Pid2 1 (sanseInit Pid2 []) [] [7] [9]).2.1 = [7] ∧
    wbcAuthDecrypt Pid2 2 1 (farfalleInit Pid2 []) (farfalleInit Pid2 []) [] [9]
      = some (false, [9]) ∧
    ([9] : List Nat) = [9] :=
  ⟨by decide, by decide,
   (c6_failure_restores_buffer Pid2).1 1 (sanseInit Pid2 []) [] [7] [9]
     (by decide) (by decide),
   by decide,
   (c6_failure_restores_buffer Pid2).2 2 1 (farfalleInit Pid2 []) (farfalleInit Pid2 [])
     [] [9] [9] (by decide) (by decide) (by decide)⟩

/-- Claim C7: SANE decrypt failure semantics — on an authentication failure
the buffer is unmodified and the session keystream is not replaced, while the
history has absorbed ad/ciphertext through `apply_ad_ct` (the same delimiters
as encrypt) and the direction bit has flipped, exactly as on a successful
call. -/
theorem c7_sane_decrypt_failure (P : FarfalleP) (ts : Nat) (s : SaneSt)
    (ad ct tag : List Nat) (hf : (saneDecrypt P ts s ad ct tag).2.2 = false) :
    (saneDecrypt P ts s ad ct tag).1.d = (apply_ad_ct P s.d s.e ad ct).1 ∧
    (saneDecrypt P ts s ad ct tag).1.e = s.e ^^^ 0x40 ∧
    (saneDecrypt P ts s ad ct tag).1.k = s.k ∧
    (saneDecrypt P ts s ad ct tag).2.1 = ct := by
  simp only [saneDecrypt] at hf ⊢
  split at hf
  · simp at hf
  · next h =>
    simp only [if_neg h]
    exact ⟨trivial, trivial, trivial, trivial⟩

/-- Witness for C7 at a concrete failing decrypt. -/
theorem c7_sane_decrypt_failure_witness :
    (saneDecrypt Pid2 1 (saneInit Pid2 1 2 [] []) [] [7] [9]).2.2 = false ∧
    ((saneDecrypt Pid2 1 (saneInit Pid2 1 2 [] []) [] [7] [9]).1.d
        = (apply_ad_ct Pid2 (saneInit Pid2 1 2 [] []).d
            (saneInit Pid2 1 2 [] []).e [] [7]).1 ∧
      (saneDecrypt Pid2 1 (saneInit Pid2 1 2 [] []) [] [7] [9]).1.e
        = (saneInit Pid2 1 2 [] []).e ^^^ 0x40 ∧
      (saneDecrypt Pid2 1 (saneInit Pid2 1 2 [] []) [] [7] [9]).1.k
        = (saneInit Pid2 1 2 [] []).k ∧
      (saneDecrypt Pid2 1 (saneInit Pid2 1 2 [] []) [] [7] [9]).2.1 = [7]) :=
  ⟨by decide,
   c7_sane_decrypt_failure Pid2 1 (saneInit Pid2 1 2 [] []) [] [7] [9] (by decide)⟩

/-- Claim C8: SANSE determinism — two sessions freshly initialized with the
same key and fed the identical sequence of (ad, plaintext) calls produce
byte-identical ciphertexts and tags at every step. -/
theorem c8_sanse_deterministic (P : FarfalleP) (ts : Nat) (key : List Nat)
    (msgs : List (List Nat × List Nat)) (s1 s2 : SanseSt)
    (h1 : s1 = sanseInit P key) (h2 : s2 = sanseInit P key) :
    sanseEncSteps P ts s1 msgs = sanseEncSteps P ts s2 msgs := by
  rw [h1, h2]

/-- Witness for C8 at a concrete instantiation. -/
theorem c8_sanse_deterministic_witness :
    sanseEncSteps Pid2 1 (sanseInit Pid2 [3]) [([1], [2])]
      = sanseEncSteps Pid2 1 (sanseInit Pid2 [3]) [([1], [2])] :=
  c8_sanse_deterministic Pid2 1 [3] [([1], [2])] _ _ rfl rfl

/-- Claim C9: direction-bit invariant — every reachable `DeckSane` state has
`e ∈ {0x00, 0x40}` and every reachable `DeckSanse` state has
`e ∈ {0x00, 0x20}`; each encrypt or decrypt call xors the respective constant
into `e` exactly once, regardless of outcome. -/
theorem c9_direction_bit (P : FarfalleP) (ts al : Nat) :
    (∀ s, SaneReach P ts al s → s.e = 0x00 ∨ s.e = 0x40) ∧
    (∀ s ad pt, (saneEncrypt P ts s ad pt).1.e = s.e ^^^ 0x40) ∧
    (∀ s ad ct tag, (saneDecrypt P ts s ad ct tag).1.e = s.e ^^^ 0x40) ∧
    (∀ s, SanseReach P ts s → s.e = 0x00 ∨ s.e = 0x20) ∧
    (∀ s ad pt, (sanseEncrypt P ts s ad pt).1.e = s.e ^^^ 0x20) ∧
    (∀ s ad ct tag, (sanseDecrypt P ts s ad ct tag).1.e = s.e ^^^ 0x20) := by
  refine ⟨?_, saneEncrypt_e P ts, saneDecrypt_e P ts, ?_,
    sanseEncrypt_e P ts, sanseDecrypt_e P ts⟩
  · intro s h
    induction h with
    | init key iv => left; rfl
    | enc s ad pt _ ih =>
      rw [saneEncrypt_e]
      rcases ih with h | h <;> rw [h] <;> decide
    | dec s ad ct tag _ ih =>
      rw [saneDecrypt_e]
      rcases ih with h | h <;> rw [h] <;> decide
  · intro s h
    induction h with
    | init key => left; rfl
    | enc s ad pt _ ih =>
      rw [sanseEncrypt_e]
      rcases ih with h | h <;> rw [h] <;> decide
    | dec s ad ct tag _ ih =>
      rw [sanseDecrypt_e]
      rcases ih with h | h <;> rw [h] <;> decide

/-- Witness for C9 at concrete reachable states. -/
theorem c9_direction_bit_witness :
    ((saneInit Pid2 1 2 [] []).e = 0x00 ∨ (saneInit Pid2 1 2 [] []).e = 0x40) ∧
    ((sanseInit Pid2 []).e = 0x00 ∨ (sanseInit Pid2 []).e = 0x20) :=
  ⟨(c9_direction_bit Pid2 1 2).1 (saneInit Pid2 1 2 [] []) (SaneReach.init [] []),
   (c9_direction_bit Pid2 1 2).2.2.2.1 (sanseInit Pid2 []) (SanseReach.init [])⟩

/-- Claim C10: short-buffer rejection — for every buffer strictly shorter
than the tag length `T`, `WideBlockCipherAuthenticated::decrypt_in_place`
returns an authentication error immediately with the buffer completely
unmodified. -/
theorem c10_short_buffer (P : FarfalleP) (l T : Nat) (g h0 : FSt)
    (tweak buf : List Nat) (hlt : buf.length < T) :
    wbcAuthDecrypt P l T g h0 tweak buf = some (false, buf) := by
  simp only [wbcAuthDecrypt, if_pos hlt]

/-- Witness for C10 at a concrete instantiation. -/
theorem c10_short_buffer_witness :
    ([] : List Nat).length < 1 ∧
    wbcAuthDecrypt Pid2 2 1 (farfalleInit Pid2 []) (farfalleInit Pid2 []) [] []
      = some (false, []) :=
  ⟨by decide,
   c10_short_buffer Pid2 2 1 (farfalleInit Pid2 []) (farfalleInit Pid2 []) [] [] (by decide)⟩
